import Mathlib

/-!
Shallow embedding of the temporal transaction-graph engine of
`raphtory-service` (file `graph/graph_manager.py`, class `GraphManager`).

The Python class wraps a `raphtory.Graph` object.  The raphtory library
itself is not part of this repository; its graph store and temporal index
are modelled here from the specification (spec §3 Data Model, §4.1 Temporal
Index, §4.2 Graph Store): the graph state is the list of node upsert events
and the list of edge insertion events, in insertion order.  Every method of
`GraphManager` is then translated directly from the Python source, with one
documented deviation in `get_node_info` (the source's per-edge float
conversion of amounts is replaced by the exact rationals the amount strings
denote; see the doc comment there).
-/

namespace StableRisk

/-- An edge insertion event: one call of `add_transaction`'s
`graph.add_edge(timestamp, from_address, to_address, properties, layer)`.
The `amount` property is a decimal string in the source; it is modelled by
the rational number that string denotes. -/
structure Transaction where
  tx_hash : String
  from_address : String
  to_address : String
  amount : ℚ
  timestamp : Int
  block_number : Int
  contract : String
deriving DecidableEq

/-- The state of a `GraphManager`: the wrapped raphtory graph is modelled
(per spec §3/§4.1) as the list of node upsert events (`add_node` calls,
address and timestamp, in call order) and the list of edge insertion events
(`add_edge` calls, in call order); `txCount`, `nodeCount`, `edgeCount` are
the Python counters `_transaction_count`, `_node_count`, `_edge_count`. -/
structure GraphManager where
  persistent : Bool
  nodeEvents : List (String × Int)
  edges : List Transaction
  txCount : Nat
  nodeCount : Nat
  edgeCount : Nat
deriving DecidableEq

/-- `GraphManager.__init__`: fresh empty graph. -/
def GraphManager.init (persistent : Bool) : GraphManager :=
  ⟨persistent, [], [], 0, 0, 0⟩

/-- `graph.has_node(address)`: the address was added as a node or appears
as an endpoint of some inserted edge. -/
def hasNode (g : GraphManager) (a : String) : Bool :=
  g.nodeEvents.any (fun e => e.1 == a) ||
    g.edges.any (fun tx => tx.from_address == a || tx.to_address == a)

/-- All addresses occurring in the graph (with repetitions). -/
def allAddresses (g : GraphManager) : List String :=
  g.nodeEvents.map Prod.fst ++ g.edges.map (·.from_address) ++ g.edges.map (·.to_address)

/-- Keep the first occurrence of each element, dropping later duplicates;
`seen` accumulates the elements already emitted. -/
def dedupAux (seen : List String) : List String → List String
  | [] => []
  | x :: rest =>
      if seen.contains x then dedupAux seen rest
      else x :: dedupAux (x :: seen) rest

/-- The distinct elements of a list, first occurrences kept in order. -/
def dedupFirst (l : List String) : List String := dedupAux [] l

/-- `graph.count_nodes()`: number of distinct addresses. -/
def count_nodes (g : GraphManager) : Nat := (dedupFirst (allAddresses g)).length

/-- `node.out_edges()` of raphtory, modelled per spec §4.1: the outgoing
edge list of an address, one entry per inserted transaction. -/
def outEdges (g : GraphManager) (a : String) : List Transaction :=
  g.edges.filter (fun tx => tx.from_address == a)

/-- `node.in_edges()`: the incoming edge list of an address. -/
def inEdges (g : GraphManager) (a : String) : List Transaction :=
  g.edges.filter (fun tx => tx.to_address == a)

/-- All event timestamps of the graph. -/
def allTimes (g : GraphManager) : List Int :=
  g.nodeEvents.map Prod.snd ++ g.edges.map (·.timestamp)

/-- Minimum of a list of timestamps, `none` when empty
(`graph.earliest_time`). -/
def listMin : List Int → Option Int
  | [] => none
  | x :: xs => some (xs.foldl min x)

/-- Maximum of a list of timestamps, `none` when empty
(`graph.latest_time`). -/
def listMax : List Int → Option Int
  | [] => none
  | x :: xs => some (xs.foldl max x)

/-- `graph.earliest_time`: minimum over all update timestamps. -/
def earliest_time (g : GraphManager) : Option Int := listMin (allTimes g)

/-- `graph.latest_time`: maximum over all update timestamps. -/
def latest_time (g : GraphManager) : Option Int := listMax (allTimes g)

/-- The record returned by `GraphManager.get_statistics`. -/
structure Statistics where
  node_count : Nat
  edge_count : Nat
  transaction_count : Nat
  earliest_time : Option Int
  latest_time : Option Int
  persistent : Bool
deriving DecidableEq

/-- `GraphManager.get_statistics` (success path of the `try` block):
`count_nodes`, `count_edges` (number of inserted edges, spec §3 multi-edge
graph), the `_transaction_count` counter, and global earliest/latest
timestamps. -/
def get_statistics (g : GraphManager) : Statistics :=
  ⟨count_nodes g, g.edges.length, g.txCount, earliest_time g, latest_time g, g.persistent⟩

/-- `GraphManager._add_or_update_node`: increments `_node_count` when the
node is new, then upserts the node with the given timestamp. -/
def add_or_update_node (g : GraphManager) (timestamp : Int) (address : String) :
    GraphManager :=
  { g with
    nodeCount := if hasNode g address then g.nodeCount else g.nodeCount + 1,
    nodeEvents := g.nodeEvents ++ [(address, timestamp)] }

/-- `GraphManager.add_transaction`.  Both endpoints are upserted first;
then `graph.add_edge` runs.  The Boolean `edgeOk` models whether that
underlying edge insertion raises an exception: when it raises, the
`except` branch returns `False` with no rollback, so the node upserts
performed before the failure remain while the edge append and the counter
increments (which come after `add_edge` in the source) never happen. -/
def add_transaction (g : GraphManager) (tx : Transaction) (edgeOk : Bool) :
    GraphManager × Bool :=
  let g1 := add_or_update_node g tx.timestamp tx.from_address
  let g2 := add_or_update_node g1 tx.timestamp tx.to_address
  if edgeOk then
    ({ g2 with
        edges := g2.edges ++ [tx],
        txCount := g2.txCount + 1,
        edgeCount := g2.edgeCount + 1 }, true)
  else (g2, false)

/-- A successful `add_transaction` call, returning the new state. -/
def addTx (g : GraphManager) (tx : Transaction) : GraphManager :=
  (add_transaction g tx true).1

/-- `GraphManager.clear`: replace the graph with a fresh one and reset the
counters, keeping the `persistent` flag. -/
def clear (g : GraphManager) : GraphManager := GraphManager.init g.persistent

/-- The record returned by `GraphManager.get_node_info`. -/
structure NodeInfo where
  address : String
  first_seen : Option Int
  last_seen : Option Int
  transaction_count : Nat
  sent_count : Nat
  received_count : Nat
  total_sent : ℚ
  total_received : ℚ
  balance_flow : ℚ
deriving DecidableEq

/-- The update timestamps of one node: its node upserts plus its incident
edges (`node.earliest_time` / `node.latest_time` range over these). -/
def nodeTimes (g : GraphManager) (a : String) : List Int :=
  (g.nodeEvents.filter (fun e => e.1 == a)).map Prod.snd ++
    (g.edges.filter (fun tx => tx.from_address == a || tx.to_address == a)).map (·.timestamp)

/-- `GraphManager.get_node_info`: `None` for an absent address; otherwise
counts and amount sums over the node's outgoing/incoming edge lists, with
`balance_flow = total_received - total_sent`.  Deliberate deviation of the
model: the source converts each edge's amount to an IEEE-754 double
(`float(edge.properties.get("amount", 0))`, lines 152-159) and sums those
doubles, so the program's totals carry float rounding (for example amounts
"0.1" and "0.2" sum to 0.30000000000000004, not 3/10); this embedding sums
the exact rationals the amount strings denote, following the value-domain
sum the spec prescribes (§3, §4.3).  The count fields are unaffected by
this deviation. -/
def get_node_info (g : GraphManager) (a : String) : Option NodeInfo :=
  if hasNode g a then
    some
      { address := a,
        first_seen := listMin (nodeTimes g a),
        last_seen := listMax (nodeTimes g a),
        transaction_count := (outEdges g a).length + (inEdges g a).length,
        sent_count := (outEdges g a).length,
        received_count := (inEdges g a).length,
        total_sent := ((outEdges g a).map (·.amount)).sum,
        total_received := ((inEdges g a).map (·.amount)).sum,
        balance_flow := ((inEdges g a).map (·.amount)).sum -
          ((outEdges g a).map (·.amount)).sum }
  else none

/-- One record of `GraphManager.get_transactions_in_window`'s result list
(`src`/`dst` are the Python dictionary keys "from"/"to"). -/
structure TxRecord where
  src : String
  dst : String
  amount : ℚ
  tx_hash : String
  block_number : Int
  timestamp : Int
deriving DecidableEq

/-- The dictionary built for one edge by `get_transactions_in_window`. -/
def toRecord (tx : Transaction) : TxRecord :=
  ⟨tx.from_address, tx.to_address, tx.amount, tx.tx_hash, tx.block_number, tx.timestamp⟩

/-- Insertion into a timestamp-sorted list, after all entries with
timestamp ≤ the new one (spec §4.1: ties broken by insertion order). -/
def insertByTime (tx : Transaction) : List Transaction → List Transaction
  | [] => [tx]
  | h :: t => if h.timestamp ≤ tx.timestamp then h :: insertByTime tx t
              else tx :: h :: t

/-- The global Temporal Index (spec §4.1): all inserted edges in ascending
timestamp order, ties in insertion order. -/
def temporalIndex (g : GraphManager) : List Transaction :=
  g.edges.foldl (fun acc tx => insertByTime tx acc) []

/-- Whether a transaction falls in the half-open window `[start, end)`. -/
def inWindow (start_time end_time : Int) (tx : Transaction) : Bool :=
  decide (start_time ≤ tx.timestamp) && decide (tx.timestamp < end_time)

/-- `GraphManager.get_transactions_in_window`: edges of the windowed view
(timestamp in `[start, end)`, ascending), truncated to `limit` records. -/
def get_transactions_in_window (g : GraphManager)
    (start_time end_time limit : Int) : List TxRecord :=
  (((temporalIndex g).filter (inWindow start_time end_time)).take limit.toNat).map toRecord

/-- `GraphManager.get_neighbors`: for an existing node, the set of
destination addresses of outgoing edges (direction "out" or "both")
together with the source addresses of incoming edges ("in" or "both"),
duplicates collapsed; otherwise the empty list. -/
def get_neighbors (g : GraphManager) (address : String) (direction : String) :
    List String :=
  if hasNode g address then
    dedupFirst
      ((if direction == "out" || direction == "both" then
          (outEdges g address).map (·.to_address)
        else []) ++
       (if direction == "in" || direction == "both" then
          (inEdges g address).map (·.from_address)
        else []))
  else []

/-- One expansion step of the BFS in `GraphManager.find_paths`: the
children of a frontier item `(current_path, visited)`, one per out-neighbor
of the last node that is not yet visited. -/
def freshNeighbors (g : GraphManager) (p v : List String) :
    List (List String × List String) :=
  ((get_neighbors g (p.getLastD "") "out").filter (fun n => !(v.contains n))).map
    (fun n => (p ++ [n], v ++ [n]))

/-- Termination weight of one frontier path: items close to the depth
bound weigh less. -/
def pathWeight (C K : Nat) (p : List String) : Nat :=
  (C + 1) ^ (K + 1 - min p.length (K + 1))

/-- Termination weight of a whole BFS frontier. -/
def queueWeight (C K : Nat) (q : List (List String × List String)) : Nat :=
  (q.map (fun it => pathWeight C K it.1)).sum

/-- The BFS loop of `GraphManager.find_paths`: pop the front of the
frontier; drop it when the path exceeds `max_depth` nodes; emit it when it
ends at the target with more than one node; otherwise enqueue its fresh
out-neighbor extensions at the back. -/
def bfs (g : GraphManager) (to_address : String) (max_depth : Int) :
    List (List String × List String) → List (List String)
  | [] => []
  | (p, v) :: rest =>
    if h1 : (p.length : Int) > max_depth then bfs g to_address max_depth rest
    else if h2 : p.getLastD "" = to_address ∧ 1 < p.length then
      p :: bfs g to_address max_depth rest
    else bfs g to_address max_depth (rest ++ freshNeighbors g p v)
termination_by q => queueWeight g.edges.length max_depth.toNat q
decreasing_by
  · simp only [queueWeight, List.map_cons, List.sum_cons]
    exact Nat.lt_add_of_pos_left (Nat.pos_pow_of_pos _ (Nat.succ_pos _))
  · simp only [queueWeight, List.map_cons, List.sum_cons]
    exact Nat.lt_add_of_pos_left (Nat.pos_pow_of_pos _ (Nat.succ_pos _))
  · simp only [queueWeight, List.map_cons, List.sum_cons, List.map_append, List.sum_append]
    have hlt : ((freshNeighbors g p v).map
        (fun it => pathWeight g.edges.length max_depth.toNat it.1)).sum <
        pathWeight g.edges.length max_depth.toNat p := by
      set C := g.edges.length with hC
      set K := max_depth.toNat with hK
      have h : (p.length : Int) ≤ max_depth := le_of_not_lt h1
      have hd0 : (0 : Int) ≤ max_depth := le_trans (by positivity) h
      have hLK : p.length ≤ K := by
        rw [hK]
        exact (Int.le_toNat hd0).mpr h
      have hmin1 : min p.length (K + 1) = p.length := min_eq_left (Nat.le_succ_of_le hLK)
      have hmin2 : min (p.length + 1) (K + 1) = p.length + 1 :=
        min_eq_left (Nat.succ_le_succ hLK)
      have hw : ((freshNeighbors g p v).map (fun it => pathWeight C K it.1)).sum =
          ((get_neighbors g (p.getLastD "") "out").filter
            (fun n => !(v.contains n))).length * (C + 1) ^ (K - p.length) := by
        simp only [freshNeighbors, List.map_map]
        have hone : ∀ n : String,
            pathWeight C K (p ++ [n]) = (C + 1) ^ (K - p.length) := by
          intro n
          simp [pathWeight, hmin2, Nat.succ_sub_succ]
        simp only [Function.comp_def, hone]
        rw [List.map_const', List.sum_replicate, smul_eq_mul]
      rw [hw]
      have hded : ∀ (seen l : List String), (dedupAux seen l).length ≤ l.length := by
        intro seen l
        induction l generalizing seen with
        | nil => simp [dedupAux]
        | cons x rest ih =>
          simp only [dedupAux]
          split
          · exact Nat.le_succ_of_le (ih seen)
          · simpa using Nat.succ_le_succ (ih (x :: seen))
      have hnb : (get_neighbors g (p.getLastD "") "out").length ≤ C := by
        unfold get_neighbors
        split
        · refine le_trans (hded _ _) ?_
          simp [outEdges, hC, List.length_filter_le]
        · simp
      have hlen2 : ((get_neighbors g (p.getLastD "") "out").filter
          (fun n => !(v.contains n))).length ≤ C :=
        le_trans (List.length_filter_le _ _) hnb
      calc ((get_neighbors g (p.getLastD "") "out").filter
            (fun n => !(v.contains n))).length * (C + 1) ^ (K - p.length)
          ≤ C * (C + 1) ^ (K - p.length) := Nat.mul_le_mul_right _ hlen2
        _ < (C + 1) * (C + 1) ^ (K - p.length) :=
            (Nat.mul_lt_mul_right (Nat.pos_pow_of_pos _ (Nat.succ_pos C))).mpr
              (Nat.lt_succ_self C)
        _ = pathWeight C K p := by
            rw [pathWeight, hmin1, ← pow_succ']
            congr 1
            omega
    omega

/-- `GraphManager.find_paths`: empty when either endpoint is absent;
otherwise the BFS starting from the one-node path at `from_address`. -/
def find_paths (g : GraphManager) (from_address to_address : String)
    (max_depth : Int) : List (List String) :=
  if hasNode g from_address && hasNode g to_address then
    bfs g to_address max_depth [([from_address], [from_address])]
  else []

/-- There is an inserted edge from `a` to `b`. -/
def isEdge (g : GraphManager) (a b : String) : Prop :=
  ∃ tx ∈ g.edges, tx.from_address = a ∧ tx.to_address = b

instance (g : GraphManager) (a b : String) : Decidable (isEdge g a b) :=
  List.decidableBEx (fun tx : Transaction => tx.from_address = a ∧ tx.to_address = b) g.edges

/-- The completions of one BFS frontier item `(p, v)`: the paths the loop
eventually emits from this item, mirroring the three branches of `bfs`. -/
inductive Reaches (g : GraphManager) (t : String) (d : Int) :
    List String → List String → List String → Prop
  | found (p v : List String) :
      ¬ ((p.length : Int) > d) → p.getLastD "" = t → 1 < p.length →
      Reaches g t d p v p
  | step (p v : List String) (n : String) (q : List String) :
      ¬ ((p.length : Int) > d) → ¬ (p.getLastD "" = t ∧ 1 < p.length) →
      n ∈ get_neighbors g (p.getLastD "") "out" → n ∉ v →
      Reaches g t d (p ++ [n]) (v ++ [n]) q →
      Reaches g t d p v q

/-- Helper to build a transaction value for concrete examples (block
number and contract fixed as in the repository's tests). -/
def mkTx (h f t : String) (amt : ℚ) (ts : Int) : Transaction :=
  ⟨h, f, t, amt, ts, 12345, "TR7NHqjeKQxGTCi8q8ZY4pL8otSzgjLj6t"⟩

/-- The chain graph A→B→C→D of the repository's `test_find_paths`. -/
def chainG : GraphManager :=
  addTx (addTx (addTx (GraphManager.init false)
    (mkTx "0x1" "TAddrA" "TAddrB" 100 100))
    (mkTx "0x2" "TAddrB" "TAddrC" 100 200))
    (mkTx "0x3" "TAddrC" "TAddrD" 100 300)

/-- A graph with the single edge A→B. -/
def oneEdgeG : GraphManager :=
  addTx (GraphManager.init false) (mkTx "0xe" "TAddrA" "TAddrB" 1 10)

/-- A graph with one self-loop edge A→A. -/
def selfG : GraphManager :=
  addTx (GraphManager.init false) (mkTx "0xs" "TAddrA" "TAddrA" 1 5)

/-- Four transactions at timestamps 200, 260, 320, 380, as in the
windowed-scan example of the spec. -/
def windowG : GraphManager :=
  addTx (addTx (addTx (addTx (GraphManager.init false)
    (mkTx "0x1" "TFrom" "TTo" 100 200))
    (mkTx "0x2" "TFrom" "TTo" 100 260))
    (mkTx "0x3" "TFrom" "TTo" 100 320))
    (mkTx "0x4" "TFrom" "TTo" 100 380)

/-- One transaction A→B with amount 100.5 (the rational 201/2). -/
def infoG : GraphManager :=
  addTx (GraphManager.init false) (mkTx "0xa" "TFromAddr" "TToAddr" (201 / 2) 1000)

/-- Edges A→B and B→C, the neighbor example of the repository's tests. -/
def neighborsG : GraphManager :=
  addTx (addTx (GraphManager.init false)
    (mkTx "0x1" "TAddrA" "TAddrB" 100 100))
    (mkTx "0x2" "TAddrB" "TAddrC" 50 200)

/-- A transaction used to exhibit the effect of a failed write. -/
def failTx : Transaction := mkTx "0xf" "TNewA" "TNewB" 5 50

theorem pathWeight_pos (C K : Nat) (p : List String) : 0 < pathWeight C K p :=
  Nat.pos_pow_of_pos _ (Nat.succ_pos C)

theorem length_dedupAux_le (seen l : List String) :
    (dedupAux seen l).length ≤ l.length := by
  induction l generalizing seen with
  | nil => simp [dedupAux]
  | cons x rest ih =>
    simp only [dedupAux]
    split
    · exact Nat.le_succ_of_le (ih seen)
    · simpa using Nat.succ_le_succ (ih (x :: seen))

theorem length_dedupFirst_le (l : List String) :
    (dedupFirst l).length ≤ l.length := length_dedupAux_le [] l

theorem length_get_neighbors_out_le (g : GraphManager) (a : String) :
    (get_neighbors g a "out").length ≤ g.edges.length := by
  unfold get_neighbors
  split
  · refine le_trans (length_dedupFirst_le _) ?_
    simp [outEdges, List.length_filter_le]
  · simp

theorem queueWeight_cons (C K : Nat) (it : List String × List String)
    (q : List (List String × List String)) :
    queueWeight C K (it :: q) = pathWeight C K it.1 + queueWeight C K q := by
  simp [queueWeight]

theorem queueWeight_append (C K : Nat)
    (q r : List (List String × List String)) :
    queueWeight C K (q ++ r) = queueWeight C K q + queueWeight C K r := by
  simp [queueWeight]

theorem queueWeight_freshNeighbors_lt (g : GraphManager) (d : Int)
    (p v : List String) (h : (p.length : Int) ≤ d) :
    queueWeight g.edges.length d.toNat (freshNeighbors g p v) <
      pathWeight g.edges.length d.toNat p := by
  set C := g.edges.length with hC
  set K := d.toNat with hK
  have hd0 : (0 : Int) ≤ d := le_trans (by positivity) h
  have hLK : p.length ≤ K := by
    rw [hK]
    exact (Int.le_toNat hd0).mpr h
  have hmin1 : min p.length (K + 1) = p.length := min_eq_left (Nat.le_succ_of_le hLK)
  have hmin2 : min (p.length + 1) (K + 1) = p.length + 1 :=
    min_eq_left (Nat.succ_le_succ hLK)
  have hw : queueWeight C K (freshNeighbors g p v) =
      ((get_neighbors g (p.getLastD "") "out").filter
        (fun n => !(v.contains n))).length * (C + 1) ^ (K - p.length) := by
    simp only [queueWeight, freshNeighbors, List.map_map]
    have : ∀ n : String,
        pathWeight C K (p ++ [n]) = (C + 1) ^ (K - p.length) := by
      intro n
      simp [pathWeight, hmin2, Nat.succ_sub_succ]
    simp only [Function.comp_def, this]
    rw [List.map_const', List.sum_replicate, smul_eq_mul]
  rw [hw]
  have hlen : ((get_neighbors g (p.getLastD "") "out").filter
      (fun n => !(v.contains n))).length ≤ C := by
    refine le_trans (List.length_filter_le _ _) ?_
    exact length_get_neighbors_out_le g _
  calc ((get_neighbors g (p.getLastD "") "out").filter
        (fun n => !(v.contains n))).length * (C + 1) ^ (K - p.length)
      ≤ C * (C + 1) ^ (K - p.length) :=
        Nat.mul_le_mul_right _ hlen
    _ < (C + 1) * (C + 1) ^ (K - p.length) :=
        (Nat.mul_lt_mul_right (Nat.pos_pow_of_pos _ (Nat.succ_pos C))).mpr
          (Nat.lt_succ_self C)
    _ = pathWeight C K p := by
        rw [pathWeight, hmin1, ← pow_succ']
        congr 1
        omega

theorem bfs_nil (g : GraphManager) (t : String) (d : Int) :
    bfs g t d [] = [] := by
  rw [bfs]

theorem bfs_cons (g : GraphManager) (t : String) (d : Int)
    (p v : List String) (rest : List (List String × List String)) :
    bfs g t d ((p, v) :: rest) =
      if (p.length : Int) > d then bfs g t d rest
      else if p.getLastD "" = t ∧ 1 < p.length then p :: bfs g t d rest
      else bfs g t d (rest ++ freshNeighbors g p v) := by
  rw [bfs]
  split
  · rfl
  · split <;> rfl

theorem mem_dedupAux (seen l : List String) (y : String) :
    y ∈ dedupAux seen l ↔ y ∈ l ∧ y ∉ seen := by
  induction l generalizing seen with
  | nil => simp [dedupAux]
  | cons x rest ih =>
    simp only [dedupAux]
    split
    · rename_i hx
      rw [List.elem_iff] at hx
      rw [ih]
      constructor
      · rintro ⟨h1, h2⟩
        exact ⟨List.mem_cons_of_mem _ h1, h2⟩
      · rintro ⟨h1, h2⟩
        rcases List.mem_cons.mp h1 with h | h
        · exact absurd (h ▸ hx) h2
        · exact ⟨h, h2⟩
    · rename_i hx
      have hxs : x ∉ seen := fun h => hx (List.elem_iff.mpr h)
      simp only [List.mem_cons, ih]
      constructor
      · rintro (rfl | ⟨h1, h2⟩)
        · exact ⟨Or.inl rfl, hxs⟩
        · exact ⟨Or.inr h1, fun hy => h2 (Or.inr hy)⟩
      · rintro ⟨h1, h2⟩
        by_cases hyx : y = x
        · exact Or.inl hyx
        · rcases h1 with rfl | h1
          · exact absurd rfl hyx
          · refine Or.inr ⟨h1, fun hy => ?_⟩
            rcases hy with rfl | hy
            · exact hyx rfl
            · exact h2 hy

theorem mem_dedupFirst (l : List String) (y : String) :
    y ∈ dedupFirst l ↔ y ∈ l := by
  rw [dedupFirst, mem_dedupAux]
  simp

theorem nodup_dedupAux (seen l : List String) : (dedupAux seen l).Nodup := by
  induction l generalizing seen with
  | nil => simp [dedupAux]
  | cons x rest ih =>
    simp only [dedupAux]
    split
    · exact ih seen
    · refine List.Nodup.cons ?_ (ih (x :: seen))
      intro hx
      rcases (mem_dedupAux _ _ _).mp hx with ⟨_, h2⟩
      exact h2 (List.mem_cons_self _ _)

theorem nodup_dedupFirst (l : List String) : (dedupFirst l).Nodup :=
  nodup_dedupAux [] l

theorem hasNode_of_edge_src (g : GraphManager) (a b : String)
    (h : isEdge g a b) : hasNode g a = true := by
  rcases h with ⟨tx, htx, h1, _⟩
  simp only [hasNode, Bool.or_eq_true, List.any_eq_true]
  exact Or.inr ⟨tx, htx, by simp [h1]⟩

theorem hasNode_of_edge_dst (g : GraphManager) (a b : String)
    (h : isEdge g a b) : hasNode g b = true := by
  rcases h with ⟨tx, htx, _, h2⟩
  simp only [hasNode, Bool.or_eq_true, List.any_eq_true]
  exact Or.inr ⟨tx, htx, by simp [h2]⟩

theorem get_neighbors_nodup (g : GraphManager) (a direction : String) :
    (get_neighbors g a direction).Nodup := by
  unfold get_neighbors
  split
  · exact nodup_dedupFirst _
  · exact List.nodup_nil

theorem get_neighbors_absent (g : GraphManager) (a direction : String)
    (h : hasNode g a = false) : get_neighbors g a direction = [] := by
  unfold get_neighbors
  simp [h]

theorem get_neighbors_out_eq (g : GraphManager) (a : String)
    (h : hasNode g a = true) :
    get_neighbors g a "out" = dedupFirst ((outEdges g a).map (·.to_address)) := by
  unfold get_neighbors
  rw [if_pos h]
  simp

theorem get_neighbors_in_eq (g : GraphManager) (a : String)
    (h : hasNode g a = true) :
    get_neighbors g a "in" = dedupFirst ((inEdges g a).map (·.from_address)) := by
  unfold get_neighbors
  rw [if_pos h]
  simp

theorem get_neighbors_both_eq (g : GraphManager) (a : String)
    (h : hasNode g a = true) :
    get_neighbors g a "both" =
      dedupFirst ((outEdges g a).map (·.to_address) ++
        (inEdges g a).map (·.from_address)) := by
  unfold get_neighbors
  rw [if_pos h]
  simp

theorem mem_get_neighbors_out (g : GraphManager) (a x : String) :
    x ∈ get_neighbors g a "out" ↔ isEdge g a x := by
  cases h : hasNode g a with
  | false =>
    rw [get_neighbors_absent g a _ h]
    simp only [List.not_mem_nil, false_iff]
    intro he
    have hc := hasNode_of_edge_src g a x he
    rw [h] at hc
    exact Bool.false_ne_true hc
  | true =>
    rw [get_neighbors_out_eq g a h, mem_dedupFirst]
    simp only [List.mem_map, outEdges, List.mem_filter, isEdge, beq_iff_eq]
    constructor
    · rintro ⟨tx, ⟨htx, hfrom⟩, rfl⟩
      exact ⟨tx, htx, hfrom, rfl⟩
    · rintro ⟨tx, htx, hfrom, rfl⟩
      exact ⟨tx, ⟨htx, hfrom⟩, rfl⟩

theorem mem_get_neighbors_in (g : GraphManager) (a x : String) :
    x ∈ get_neighbors g a "in" ↔ isEdge g x a := by
  cases h : hasNode g a with
  | false =>
    rw [get_neighbors_absent g a _ h]
    simp only [List.not_mem_nil, false_iff]
    intro he
    have hc := hasNode_of_edge_dst g x a he
    rw [h] at hc
    exact Bool.false_ne_true hc
  | true =>
    rw [get_neighbors_in_eq g a h, mem_dedupFirst]
    simp only [List.mem_map, inEdges, List.mem_filter, isEdge, beq_iff_eq]
    constructor
    · rintro ⟨tx, ⟨htx, hto⟩, rfl⟩
      exact ⟨tx, htx, rfl, hto⟩
    · rintro ⟨tx, htx, rfl, hto⟩
      exact ⟨tx, ⟨htx, hto⟩, rfl⟩

theorem mem_get_neighbors_both (g : GraphManager) (a x : String) :
    x ∈ get_neighbors g a "both" ↔ (isEdge g a x ∨ isEdge g x a) := by
  cases h : hasNode g a with
  | false =>
    rw [get_neighbors_absent g a _ h]
    simp only [List.not_mem_nil, false_iff]
    rintro (he | he)
    · have hc := hasNode_of_edge_src g a x he
      rw [h] at hc
      exact Bool.false_ne_true hc
    · have hc := hasNode_of_edge_dst g x a he
      rw [h] at hc
      exact Bool.false_ne_true hc
  | true =>
    rw [get_neighbors_both_eq g a h, mem_dedupFirst]
    simp only [List.mem_append, List.mem_map, outEdges, inEdges, List.mem_filter,
      isEdge, beq_iff_eq]
    constructor
    · rintro (⟨tx, ⟨htx, hfrom⟩, rfl⟩ | ⟨tx, ⟨htx, hto⟩, rfl⟩)
      · exact Or.inl ⟨tx, htx, hfrom, rfl⟩
      · exact Or.inr ⟨tx, htx, rfl, hto⟩
    · rintro (⟨tx, htx, hfrom, rfl⟩ | ⟨tx, htx, rfl, hto⟩)
      · exact Or.inl ⟨tx, ⟨htx, hfrom⟩, rfl⟩
      · exact Or.inr ⟨tx, ⟨htx, hto⟩, rfl⟩

theorem mem_freshNeighbors (g : GraphManager) (p v : List String)
    (it : List String × List String) :
    it ∈ freshNeighbors g p v ↔
      ∃ n, n ∈ get_neighbors g (p.getLastD "") "out" ∧ n ∉ v ∧
        it = (p ++ [n], v ++ [n]) := by
  unfold freshNeighbors
  constructor
  · intro hit
    rcases List.mem_map.mp hit with ⟨n, hn, rfl⟩
    rcases List.mem_filter.mp hn with ⟨hn1, hn2⟩
    simp only [Bool.not_eq_true'] at hn2
    refine ⟨n, hn1, fun hmem => ?_, rfl⟩
    have hc := List.elem_iff.mpr hmem
    have hn2' : List.elem n v = false := hn2
    rw [hn2'] at hc
    exact Bool.false_ne_true hc
  · rintro ⟨n, h1, h2, rfl⟩
    refine List.mem_map.mpr ⟨n, List.mem_filter.mpr ⟨h1, ?_⟩, rfl⟩
    simp only [Bool.not_eq_true']
    rw [← Bool.not_eq_true]
    intro hc
    exact h2 (List.elem_iff.mp hc)

theorem mem_bfs_aux (g : GraphManager) (t : String) (d : Int) :
    ∀ m queue, queueWeight g.edges.length d.toNat queue = m →
      ∀ q : List String,
        (q ∈ bfs g t d queue ↔ ∃ it ∈ queue, Reaches g t d it.1 it.2 q) := by
  intro m
  induction m using Nat.strong_induction_on with
  | _ m ih =>
    intro queue hm q
    match queue with
    | [] => simp [bfs_nil]
    | (p, v) :: rest =>
      rw [queueWeight_cons] at hm
      have hrest : queueWeight g.edges.length d.toNat rest < m := by
        have := pathWeight_pos g.edges.length d.toNat p
        dsimp only at hm
        omega
      rw [bfs_cons]
      by_cases h1 : (p.length : Int) > d
      · rw [if_pos h1, ih _ hrest rest rfl q]
        constructor
        · rintro ⟨it, hit, hr⟩
          exact ⟨it, List.mem_cons_of_mem _ hit, hr⟩
        · rintro ⟨it, hit, hr⟩
          rcases List.mem_cons.mp hit with rfl | hit
          · cases hr with
            | found _ _ hdep _ _ => exact absurd h1 hdep
            | step _ _ _ _ hdep _ _ _ _ => exact absurd h1 hdep
          · exact ⟨it, hit, hr⟩
      · rw [if_neg h1]
        by_cases h2 : p.getLastD "" = t ∧ 1 < p.length
        · rw [if_pos h2, List.mem_cons, ih _ hrest rest rfl q]
          constructor
          · rintro (hq | ⟨it, hit, hr⟩)
            · refine ⟨(p, v), List.mem_cons_self _ _, ?_⟩
              rw [hq]
              exact Reaches.found p v h1 h2.1 h2.2
            · exact ⟨it, List.mem_cons_of_mem _ hit, hr⟩
          · rintro ⟨it, hit, hr⟩
            rcases List.mem_cons.mp hit with rfl | hit
            · cases hr with
              | found _ _ _ _ _ => exact Or.inl rfl
              | step _ _ _ _ _ hns _ _ _ => exact absurd h2 hns
            · exact Or.inr ⟨it, hit, hr⟩
        · rw [if_neg h2]
          have hfresh : queueWeight g.edges.length d.toNat
              (rest ++ freshNeighbors g p v) < m := by
            rw [queueWeight_append]
            have := queueWeight_freshNeighbors_lt g d p v (le_of_not_lt h1)
            dsimp only at hm
            omega
          rw [ih _ hfresh (rest ++ freshNeighbors g p v) rfl q]
          constructor
          · rintro ⟨it, hit, hr⟩
            rcases List.mem_append.mp hit with hit | hit
            · exact ⟨it, List.mem_cons_of_mem _ hit, hr⟩
            · rcases (mem_freshNeighbors g p v it).mp hit with ⟨n, hn1, hn2, rfl⟩
              exact ⟨(p, v), List.mem_cons_self _ _,
                Reaches.step p v n q h1 h2 hn1 hn2 hr⟩
          · rintro ⟨it, hit, hr⟩
            rcases List.mem_cons.mp hit with rfl | hit
            · cases hr with
              | found _ _ _ hlast hlen => exact absurd ⟨hlast, hlen⟩ h2
              | step _ _ n _ _ _ hn hnv hr' =>
                exact ⟨(p ++ [n], v ++ [n]),
                  List.mem_append.mpr (Or.inr
                    ((mem_freshNeighbors g p v _).mpr ⟨n, hn, hnv, rfl⟩)), hr'⟩
            · exact ⟨it, List.mem_append.mpr (Or.inl hit), hr⟩

theorem mem_bfs_iff (g : GraphManager) (t : String) (d : Int)
    (queue : List (List String × List String)) (q : List String) :
    q ∈ bfs g t d queue ↔ ∃ it ∈ queue, Reaches g t d it.1 it.2 q :=
  mem_bfs_aux g t d _ queue rfl q

theorem getLastD_not_mem_dropLast (l : List String) (de : String) (h : l ≠ [])
    (hn : l.Nodup) : l.getLastD de ∉ l.dropLast := by
  rw [List.getLastD_eq_getLast?, List.getLast?_eq_getLast _ h]
  intro hc
  have heq := List.dropLast_concat_getLast h
  rw [← heq] at hn
  exact List.disjoint_of_nodup_append hn hc (List.mem_singleton_self _)

/-- Soundness of the BFS step relation: a completion of `(p, v)` is `p`
extended by a chain of fresh pairwise-distinct nodes that ends at the
target within the depth bound. -/
theorem Reaches.decompose (g : GraphManager) (t : String) (d : Int)
    (p v q : List String) (hr : Reaches g t d p v q) :
    ∃ r, q = p ++ r ∧ (∀ x ∈ r, x ∉ v) ∧ r.Nodup ∧
      List.Chain' (isEdge g) (p.getLastD "" :: r) ∧
      q.getLastD "" = t ∧ 1 < q.length ∧ (q.length : Int) ≤ d := by
  induction hr with
  | found _ _ hdep hlast hlen =>
    exact ⟨[], by simp, by simp, List.nodup_nil, by simp,
      hlast, hlen, le_of_not_lt hdep⟩
  | step _ _ n _ hdep hns hn hnv hr ih =>
    rename_i p' v' q'
    rcases ih with ⟨r', hq, hfresh, hnodup, hchain, hlast, hlen, hd⟩
    refine ⟨n :: r', ?_, ?_, ?_, ?_, hlast, hlen, hd⟩
    · rw [hq, List.append_assoc]
      rfl
    · intro x hx
      rcases List.mem_cons.mp hx with rfl | hx
      · exact hnv
      · intro hxv
        exact hfresh x hx (List.mem_append.mpr (Or.inl hxv))
    · refine List.nodup_cons.mpr ⟨?_, hnodup⟩
      intro hnr
      exact hfresh n hnr (List.mem_append.mpr (Or.inr (List.mem_singleton_self _)))
    · rw [List.chain'_cons]
      have hcast : (p' ++ [n]).getLastD "" = n := List.getLastD_concat _ _ _
      rw [hcast] at hchain
      exact ⟨(mem_get_neighbors_out g _ n).mp hn, hchain⟩

/-- Completeness of the BFS step relation: any fresh simple chain
extension of `p` ending at the target within the depth bound is a
completion of `(p, v)`, provided no intermediate stage already satisfies
the emission condition. -/
theorem Reaches.build (g : GraphManager) (t : String) (d : Int) :
    ∀ (r p v : List String), (∀ x ∈ r, x ∉ v) → r.Nodup →
      List.Chain' (isEdge g) (p.getLastD "" :: r) →
      (p ++ r).getLastD "" = t → 1 < (p ++ r).length →
      ((p ++ r).length : Int) ≤ d →
      (r ≠ [] → ¬ (p.getLastD "" = t ∧ 1 < p.length)) →
      t ∉ r.dropLast →
      Reaches g t d p v (p ++ r) := by
  intro r
  induction r with
  | nil =>
    intro p v _ _ _ hlast hlen hd _ _
    rw [List.append_nil] at hlast hlen hd ⊢
    exact Reaches.found p v (not_lt.mpr hd) hlast hlen
  | cons n r' ih =>
    intro p v hfresh hnodup hchain hlast hlen hd hstage hmid
    have hdep : ¬ ((p.length : Int) > d) := by
      have hlt : p.length < (p ++ n :: r').length := by simp
      rw [not_lt]
      calc (p.length : Int) ≤ ((p ++ n :: r').length : Int) := by exact_mod_cast le_of_lt hlt
        _ ≤ d := hd
    have hedge : isEdge g (p.getLastD "") n := (List.chain'_cons.mp hchain).1
    have hq : p ++ n :: r' = (p ++ [n]) ++ r' := by
      rw [List.append_assoc]
      rfl
    rw [hq]
    refine Reaches.step p v n _ hdep (hstage (by simp)) ?_ (hfresh n (by simp)) ?_
    · exact (mem_get_neighbors_out g _ n).mpr hedge
    · refine ih (p ++ [n]) (v ++ [n]) ?_ (List.nodup_cons.mp hnodup).2 ?_ ?_ ?_ ?_ ?_ ?_
      · intro x hx hxv
        rcases List.mem_append.mp hxv with hxv | hxv
        · exact hfresh x (List.mem_cons_of_mem _ hx) hxv
        · rcases List.mem_singleton.mp hxv with rfl
          exact (List.nodup_cons.mp hnodup).1 hx
      · rw [List.getLastD_concat]
        exact (List.chain'_cons.mp hchain).2
      · rw [← hq]
        exact hlast
      · rw [← hq]
        exact hlen
      · rw [← hq]
        exact hd
      · intro hr' hc
        rw [List.getLastD_concat] at hc
        rcases hc with ⟨rfl, _⟩
        apply hmid
        have : (n :: r').dropLast = n :: r'.dropLast := by
          cases r' with
          | nil => exact absurd rfl hr'
          | cons b r'' => rfl
        rw [this]
        exact List.mem_cons_self _ _
      · intro ht
        apply hmid
        cases r' with
        | nil => cases ht
        | cons b r'' =>
          have : (n :: b :: r'').dropLast = n :: (b :: r'').dropLast := rfl
          rw [this]
          exact List.mem_cons_of_mem _ ht

/-- Characterization of `find_paths` for existing endpoints: membership in
the result is exactly being a nonempty simple chain of out-edges from
`from_address` to `to_address` with at most `max_depth` nodes (hence at
most `max_depth - 1` edges). -/
theorem find_paths_mem_iff (g : GraphManager) (f t : String) (d : Int)
    (hf : hasNode g f = true) (ht : hasNode g t = true) (q : List String) :
    q ∈ find_paths g f t d ↔
      (q.head? = some f ∧ q.getLastD "" = t ∧ List.Chain' (isEdge g) q ∧
       q.Nodup ∧ 1 < q.length ∧ (q.length : Int) ≤ d) := by
  unfold find_paths
  rw [if_pos (by rw [hf, ht]; rfl), mem_bfs_iff]
  constructor
  · rintro ⟨it, hit, hr⟩
    rcases List.mem_singleton.mp hit with rfl
    rcases Reaches.decompose g t d [f] [f] q hr with
      ⟨r, rfl, hfresh, hnodup, hchain, hlast, hlen, hd⟩
    refine ⟨by simp, hlast, ?_, ?_, hlen, hd⟩
    · simpa using hchain
    · have hfr : f ∉ r := fun hf' => hfresh f hf' (List.mem_singleton_self _)
      simpa using List.nodup_cons.mpr ⟨hfr, hnodup⟩
  · rintro ⟨hhead, hlast, hchain, hnodup, hlen, hd⟩
    match q, hhead with
    | a :: r, hhead =>
      have haf : a = f := by simpa using hhead
      subst haf
      refine ⟨([a], [a]), List.mem_singleton_self _, ?_⟩
      have hq : a :: r = [a] ++ r := rfl
      rw [hq] at hlast hlen hd ⊢
      refine Reaches.build g t d r [a] [a] ?_ (List.nodup_cons.mp hnodup).2
        ?_ hlast hlen hd ?_ ?_
      · intro x hx hxv
        rcases List.mem_singleton.mp hxv with rfl
        exact (List.nodup_cons.mp hnodup).1 hx
      · simpa using hchain
      · intro _ hc
        simp at hc
      · intro htd
        have hrne : r ≠ [] := by
          intro hre
          rw [hre] at htd
          cases htd
        have hlast' : r.getLastD a = t := by
          rw [← List.getLastD_cons]
          exact hlast
        rw [← hlast'] at htd
        exact getLastD_not_mem_dropLast r a hrne (List.nodup_cons.mp hnodup).2 htd

theorem getLastD_mem (l : List String) (de : String) (h : l ≠ []) :
    l.getLastD de ∈ l := by
  rw [List.getLastD_eq_getLast?, List.getLast?_eq_getLast _ h]
  exact List.getLast_mem h

/-- C8: when caller-constraint-violating arguments reach the core, the
read queries deterministically return the empty list: a window with
`start ≥ end`, a window with non-positive `limit`, and a path search with
`max_depth ≤ 0` all yield `[]` in every graph state. -/
theorem claim_C8_invalid_args :
    (∀ (g : GraphManager) (s e l : Int), e ≤ s →
      get_transactions_in_window g s e l = []) ∧
    (∀ (g : GraphManager) (s e l : Int), l ≤ 0 →
      get_transactions_in_window g s e l = []) ∧
    (∀ (g : GraphManager) (f t : String) (d : Int), d ≤ 0 →
      find_paths g f t d = []) := by
  refine ⟨?_, ?_, ?_⟩
  · intro g s e l hes
    unfold get_transactions_in_window
    have hfil : (temporalIndex g).filter (inWindow s e) = [] := by
      rw [List.filter_eq_nil]
      intro tx _
      simp only [inWindow, Bool.and_eq_true, decide_eq_true_eq, not_and]
      intro h1 h2
      omega
    rw [hfil]
    simp
  · intro g s e l hl
    unfold get_transactions_in_window
    rw [Int.toNat_of_nonpos hl]
    simp
  · intro g f t d hd
    unfold find_paths
    split
    · rw [bfs_cons, if_pos (by simp; omega), bfs_nil]
    · rfl

/-- C8 witness: the three empty results at concrete inputs. -/
theorem claim_C8_invalid_args_witness :
    get_transactions_in_window chainG 300 200 10 = [] ∧
    get_transactions_in_window chainG 100 400 0 = [] ∧
    find_paths chainG "TAddrA" "TAddrD" 0 = [] :=
  ⟨claim_C8_invalid_args.1 chainG 300 200 10 (by decide),
   claim_C8_invalid_args.2.1 chainG 100 400 0 (by decide),
   claim_C8_invalid_args.2.2 chainG "TAddrA" "TAddrD" 0 (by decide)⟩

/-- C9: `find_paths(a, a, max_depth)` is always empty for an existing
address `a` and `max_depth ≥ 1`: the start node is in the visited set from
the start, and a returned path would have to be a nonempty duplicate-free
list starting and ending at `a`. -/
theorem claim_C9_no_self_paths (g : GraphManager) (a : String) (d : Int)
    (ha : hasNode g a = true) (hd : 1 ≤ d) :
    find_paths g a a d = [] := by
  rw [List.eq_nil_iff_forall_not_mem]
  intro q hq
  rcases (find_paths_mem_iff g a a d ha ha q).mp hq with
    ⟨hhead, hlast, _, hnodup, hlen, _⟩
  match q, hhead with
  | b :: r, hhead =>
    have hba : b = a := by simpa using hhead
    have hrne : r ≠ [] := by
      intro hre
      rw [hre] at hlen
      simp at hlen
    have hlast' : r.getLastD b = a := by
      rw [← List.getLastD_cons]
      exact hlast
    have hmem : b ∈ r := by
      rw [hba]
      exact hlast' ▸ getLastD_mem r b hrne
    exact (List.nodup_cons.mp hnodup).1 hmem

/-- C9 witness: no path from A to itself even with a self-loop edge. -/
theorem claim_C9_no_self_paths_witness :
    find_paths selfG "TAddrA" "TAddrA" 5 = [] :=
  claim_C9_no_self_paths selfG "TAddrA" 5 (by decide) (by decide)

theorem isEdge_chainG_iff (x y : String) :
    isEdge chainG x y ↔
      (x = "TAddrA" ∧ y = "TAddrB") ∨ (x = "TAddrB" ∧ y = "TAddrC") ∨
        (x = "TAddrC" ∧ y = "TAddrD") := by
  have hedges : chainG.edges = [mkTx "0x1" "TAddrA" "TAddrB" 100 100,
      mkTx "0x2" "TAddrB" "TAddrC" 100 200, mkTx "0x3" "TAddrC" "TAddrD" 100 300] := rfl
  unfold isEdge
  rw [hedges]
  constructor
  · rintro ⟨tx, htx, hfrom, hto⟩
    simp only [List.mem_cons, List.not_mem_nil, or_false] at htx
    rcases htx with rfl | rfl | rfl
    · exact Or.inl ⟨hfrom.symm, hto.symm⟩
    · exact Or.inr (Or.inl ⟨hfrom.symm, hto.symm⟩)
    · exact Or.inr (Or.inr ⟨hfrom.symm, hto.symm⟩)
  · rintro (⟨rfl, rfl⟩ | ⟨rfl, rfl⟩ | ⟨rfl, rfl⟩)
    · exact ⟨mkTx "0x1" "TAddrA" "TAddrB" 100 100, by simp, rfl, rfl⟩
    · exact ⟨mkTx "0x2" "TAddrB" "TAddrC" 100 200, by simp, rfl, rfl⟩
    · exact ⟨mkTx "0x3" "TAddrC" "TAddrD" 100 300, by simp, rfl, rfl⟩

theorem chainG_paths (q : List String)
    (hch : List.Chain' (isEdge chainG) ("TAddrA" :: q)) :
    "TAddrA" :: q = ["TAddrA"] ∨ "TAddrA" :: q = ["TAddrA", "TAddrB"] ∨
    "TAddrA" :: q = ["TAddrA", "TAddrB", "TAddrC"] ∨
    "TAddrA" :: q = ["TAddrA", "TAddrB", "TAddrC", "TAddrD"] := by
  match q with
  | [] => exact Or.inl rfl
  | x :: q1 =>
    have h1 : isEdge chainG "TAddrA" x := (List.chain'_cons.mp hch).1
    have hx : x = "TAddrB" := by
      rcases (isEdge_chainG_iff _ _).mp h1 with ⟨_, h⟩ | ⟨h, _⟩ | ⟨h, _⟩
      · exact h
      · exact absurd h (by decide)
      · exact absurd h (by decide)
    subst hx
    have hch1 : List.Chain' (isEdge chainG) ("TAddrB" :: q1) := (List.chain'_cons.mp hch).2
    match q1 with
    | [] => exact Or.inr (Or.inl rfl)
    | y :: q2 =>
      have h2 : isEdge chainG "TAddrB" y := (List.chain'_cons.mp hch1).1
      have hy : y = "TAddrC" := by
        rcases (isEdge_chainG_iff _ _).mp h2 with ⟨h, _⟩ | ⟨_, h⟩ | ⟨h, _⟩
        · exact absurd h (by decide)
        · exact h
        · exact absurd h (by decide)
      subst hy
      have hch2 : List.Chain' (isEdge chainG) ("TAddrC" :: q2) := (List.chain'_cons.mp hch1).2
      match q2 with
      | [] => exact Or.inr (Or.inr (Or.inl rfl))
      | z :: q3 =>
        have h3 : isEdge chainG "TAddrC" z := (List.chain'_cons.mp hch2).1
        have hz : z = "TAddrD" := by
          rcases (isEdge_chainG_iff _ _).mp h3 with ⟨h, _⟩ | ⟨h, _⟩ | ⟨_, h⟩
          · exact absurd h (by decide)
          · exact absurd h (by decide)
          · exact h
        subst hz
        have hch3 : List.Chain' (isEdge chainG) ("TAddrD" :: q3) := (List.chain'_cons.mp hch2).2
        match q3 with
        | [] => exact Or.inr (Or.inr (Or.inr rfl))
        | w :: q4 =>
          have h4 : isEdge chainG "TAddrD" w := (List.chain'_cons.mp hch3).1
          rcases (isEdge_chainG_iff _ _).mp h4 with ⟨h, _⟩ | ⟨h, _⟩ | ⟨h, _⟩ <;>
            exact absurd h (by decide)

/-- C1 (amended): for existing endpoints, `find_paths` returns exactly the
simple directed paths (no repeated node, nonempty chain of out-edges) from
`from` to `to` whose edge count is between 1 and `max_depth - 1` inclusive
(a path with `k` nodes has `k - 1` edges, and the loop keeps only paths
with at most `max_depth` nodes); in particular for the chain A→B→C→D,
`find_paths(A, D, 5)` contains exactly [A, B, C, D] and
`find_paths(A, D, 2)` is empty. -/
theorem claim_C1_find_paths :
    (∀ (g : GraphManager) (f t : String) (d : Int),
      hasNode g f = true → hasNode g t = true →
      ∀ q : List String,
        (q ∈ find_paths g f t d ↔
          (q.head? = some f ∧ q.getLastD "" = t ∧ List.Chain' (isEdge g) q ∧
           q.Nodup ∧ 2 ≤ q.length ∧ (q.length : Int) ≤ d))) ∧
    ["TAddrA", "TAddrB", "TAddrC", "TAddrD"] ∈ find_paths chainG "TAddrA" "TAddrD" 5 ∧
    (∀ q, q ∈ find_paths chainG "TAddrA" "TAddrD" 5 →
      q = ["TAddrA", "TAddrB", "TAddrC", "TAddrD"]) ∧
    find_paths chainG "TAddrA" "TAddrD" 2 = [] := by
  have hA : hasNode chainG "TAddrA" = true := by decide
  have hD : hasNode chainG "TAddrD" = true := by decide
  have hch4 : List.Chain' (isEdge chainG) ["TAddrA", "TAddrB", "TAddrC", "TAddrD"] :=
    List.Chain.cons (by decide) (List.Chain.cons (by decide)
      (List.Chain.cons (by decide) List.Chain.nil))
  refine ⟨fun g f t d hf ht q => find_paths_mem_iff g f t d hf ht q, ?_, ?_, ?_⟩
  · exact (find_paths_mem_iff chainG "TAddrA" "TAddrD" 5 hA hD _).mpr
      ⟨rfl, rfl, hch4, by decide, by decide, by decide⟩
  · intro q hq
    rcases (find_paths_mem_iff chainG "TAddrA" "TAddrD" 5 hA hD q).mp hq with
      ⟨hhead, hlast, hch, _, _, _⟩
    match q, hhead, hlast, hch with
    | b :: r, hhead, hlast, hch =>
      have hb : b = "TAddrA" := by simpa using hhead
      subst hb
      rcases chainG_paths r hch with h | h | h | h
      · rw [h] at hlast
        exact absurd hlast (by decide)
      · rw [h] at hlast
        exact absurd hlast (by decide)
      · rw [h] at hlast
        exact absurd hlast (by decide)
      · exact h
  · rw [List.eq_nil_iff_forall_not_mem]
    intro q hq
    rcases (find_paths_mem_iff chainG "TAddrA" "TAddrD" 2 hA hD q).mp hq with
      ⟨hhead, hlast, hch, _, _, hd2⟩
    match q, hhead, hlast, hch, hd2 with
    | b :: r, hhead, hlast, hch, hd2 =>
      have hb : b = "TAddrA" := by simpa using hhead
      subst hb
      rcases chainG_paths r hch with h | h | h | h
      · rw [h] at hlast
        exact absurd hlast (by decide)
      · rw [h] at hlast
        exact absurd hlast (by decide)
      · rw [h] at hlast
        exact absurd hlast (by decide)
      · rw [h] at hd2
        exact absurd hd2 (by decide)

/-- C1 counterexample: in the graph with the single edge A→B, both
endpoints exist and [A, B] is a simple path with exactly 1 edge, so under
the claim (edge count between 1 and `max_depth` inclusive)
`find_paths(A, B, 1)` would have to contain it; the code returns `[]`
because the loop discards paths with more than `max_depth` nodes. -/
theorem claim_C1_counterexample :
    isEdge oneEdgeG "TAddrA" "TAddrB" ∧
    hasNode oneEdgeG "TAddrA" = true ∧ hasNode oneEdgeG "TAddrB" = true ∧
    ["TAddrA", "TAddrB"] ∉ find_paths oneEdgeG "TAddrA" "TAddrB" 1 := by
  refine ⟨by decide, by decide, by decide, ?_⟩
  intro hmem
  have h := (find_paths_mem_iff oneEdgeG "TAddrA" "TAddrB" 1 (by decide) (by decide)
    _).mp hmem
  exact absurd h.2.2.2.2.2 (by decide)

/-- C1 witness: the amended characterization applied at a concrete input:
[A, B] is returned for the chain graph at depth 5. -/
theorem claim_C1_find_paths_witness :
    ["TAddrA", "TAddrB"] ∈ find_paths chainG "TAddrA" "TAddrB" 5 :=
  (claim_C1_find_paths.1 chainG "TAddrA" "TAddrB" 5 (by decide) (by decide)
    ["TAddrA", "TAddrB"]).mpr
    ⟨rfl, rfl, List.Chain.cons (by decide) List.Chain.nil, by decide, by decide, by decide⟩

/-- C4 (amended): a failed write (the underlying edge insertion raising)
reports `False` and leaves the edge set and the transaction/edge counters
unchanged, but the node upserts for the two endpoints performed before the
failure survive: both endpoints exist afterwards. -/
theorem claim_C4_failed_write_effect (g : GraphManager) (tx : Transaction) :
    (add_transaction g tx false).2 = false ∧
    (add_transaction g tx false).1.edges = g.edges ∧
    (add_transaction g tx false).1.txCount = g.txCount ∧
    (add_transaction g tx false).1.edgeCount = g.edgeCount ∧
    hasNode (add_transaction g tx false).1 tx.from_address = true ∧
    hasNode (add_transaction g tx false).1 tx.to_address = true := by
  refine ⟨rfl, rfl, rfl, rfl, ?_, ?_⟩
  · simp [hasNode, add_transaction, add_or_update_node]
  · simp [hasNode, add_transaction, add_or_update_node]

/-- C4 counterexample: a failed `add_transaction` on the empty graph
reports failure, yet `has_node` on the sender flips from `false` to
`true` — the observable state is not identical to the pre-call state. -/
theorem claim_C4_counterexample :
    (add_transaction (GraphManager.init false) failTx false).2 = false ∧
    hasNode (GraphManager.init false) "TNewA" = false ∧
    hasNode (add_transaction (GraphManager.init false) failTx false).1 "TNewA" = true := by
  refine ⟨rfl, rfl, by decide⟩

/-- Concrete evaluation of `get_node_info` on the one-transaction example
graph (count fields are float-independent; the amount fields follow the
exact-rational modelling documented at `get_node_info`). -/
theorem get_node_info_infoG_from :
    get_node_info infoG "TFromAddr" =
      some ⟨"TFromAddr", some 1000, some 1000, 1, 1, 0, 201 / 2, 0, -(201 / 2)⟩ := by
  unfold get_node_info
  rw [if_pos (by decide)]
  simp [nodeTimes, outEdges, inEdges, infoG, addTx, add_transaction,
    add_or_update_node, GraphManager.init, mkTx, listMin, listMax]

/-- C6: `get_neighbors` returns, for "out", exactly the distinct
destinations of outgoing edges; for "in", the distinct sources of incoming
edges; for "both", their union; duplicates are collapsed (the result has
no duplicate entry); a missing node yields the empty result rather than an
error. -/
theorem claim_C6_neighbors (g : GraphManager) (a x : String) :
    (x ∈ get_neighbors g a "out" ↔ isEdge g a x) ∧
    (x ∈ get_neighbors g a "in" ↔ isEdge g x a) ∧
    (x ∈ get_neighbors g a "both" ↔ (isEdge g a x ∨ isEdge g x a)) ∧
    (∀ direction, hasNode g a = false → get_neighbors g a direction = []) ∧
    (∀ direction, (get_neighbors g a direction).Nodup) :=
  ⟨mem_get_neighbors_out g a x, mem_get_neighbors_in g a x,
   mem_get_neighbors_both g a x,
   fun direction h => get_neighbors_absent g a direction h,
   fun direction => get_neighbors_nodup g a direction⟩

/-- C6 witness: with edges A→B and B→C, `neighbors(B, both) = {A, C}`,
`neighbors(A, out) = {B}`, `neighbors(C, in) = {B}`, and a missing node
gives the empty result. -/
theorem claim_C6_neighbors_witness :
    get_neighbors neighborsG "TUnknown" "both" = [] ∧
    "TAddrA" ∈ get_neighbors neighborsG "TAddrB" "both" ∧
    "TAddrC" ∈ get_neighbors neighborsG "TAddrB" "both" ∧
    (get_neighbors neighborsG "TAddrB" "both").length = 2 ∧
    get_neighbors neighborsG "TAddrA" "out" = ["TAddrB"] ∧
    get_neighbors neighborsG "TAddrC" "in" = ["TAddrB"] :=
  ⟨(claim_C6_neighbors neighborsG "TUnknown" "TAddrA").2.2.2.1 "both" (by decide),
   (claim_C6_neighbors neighborsG "TAddrB" "TAddrA").2.2.1.mpr (Or.inr (by decide)),
   (claim_C6_neighbors neighborsG "TAddrB" "TAddrC").2.2.1.mpr (Or.inl (by decide)),
   by decide, by decide, by decide⟩

/-- C10: every record returned by `get_node_info` satisfies
`transaction_count = sent_count + received_count`. -/
theorem claim_C10_transaction_count (g : GraphManager) (a : String)
    (info : NodeInfo) (h : get_node_info g a = some info) :
    info.transaction_count = info.sent_count + info.received_count := by
  unfold get_node_info at h
  split at h
  · injection h with h
    subst h
    rfl
  · cases h

/-- C10 witness: the invariant at the node record of the sender in the
one-transaction example graph. -/
theorem claim_C10_transaction_count_witness :
    ((⟨"TFromAddr", some 1000, some 1000, 1, 1, 0, 201 / 2, 0,
        -(201 / 2)⟩ : NodeInfo)).transaction_count =
      ((⟨"TFromAddr", some 1000, some 1000, 1, 1, 0, 201 / 2, 0,
        -(201 / 2)⟩ : NodeInfo)).sent_count +
      ((⟨"TFromAddr", some 1000, some 1000, 1, 1, 0, 201 / 2, 0,
        -(201 / 2)⟩ : NodeInfo)).received_count :=
  claim_C10_transaction_count infoG "TFromAddr" _ get_node_info_infoG_from

/-- C3: starting from the empty graph, after N successful
`add_transaction` calls with distinct tx_hashes (several possibly between
the same ordered pair), `get_statistics` reports
`transaction_count = N` and `edge_count = N`. -/
theorem claim_C3_counters (p : Bool) (txs : List Transaction)
    (hdist : (txs.map (·.tx_hash)).Nodup) :
    (get_statistics (txs.foldl addTx (GraphManager.init p))).transaction_count
        = txs.length ∧
    (get_statistics (txs.foldl addTx (GraphManager.init p))).edge_count
        = txs.length := by
  have h1 : ∀ (l : List Transaction) (g : GraphManager),
      (l.foldl addTx g).txCount = g.txCount + l.length := by
    intro l
    induction l with
    | nil =>
      intro g
      simp
    | cons tx t ih =>
      intro g
      rw [List.foldl_cons, ih]
      simp [addTx, add_transaction, add_or_update_node]
      omega
  have h2 : ∀ (l : List Transaction) (g : GraphManager),
      (l.foldl addTx g).edges.length = g.edges.length + l.length := by
    intro l
    induction l with
    | nil =>
      intro g
      simp
    | cons tx t ih =>
      intro g
      rw [List.foldl_cons, ih]
      simp [addTx, add_transaction, add_or_update_node]
      omega
  constructor
  · show (txs.foldl addTx (GraphManager.init p)).txCount = txs.length
    rw [h1]
    simp [GraphManager.init]
  · show (txs.foldl addTx (GraphManager.init p)).edges.length = txs.length
    rw [h2]
    simp [GraphManager.init]

/-- C3 witness: two transactions between the same ordered pair with
distinct hashes give `transaction_count = 2` and `edge_count = 2`. -/
theorem claim_C3_counters_witness :
    (get_statistics ([mkTx "0xd1" "TAddrA" "TAddrB" 10 100,
        mkTx "0xd2" "TAddrA" "TAddrB" 20 200].foldl addTx
        (GraphManager.init false))).transaction_count = 2 ∧
    (get_statistics ([mkTx "0xd1" "TAddrA" "TAddrB" 10 100,
        mkTx "0xd2" "TAddrA" "TAddrB" 20 200].foldl addTx
        (GraphManager.init false))).edge_count = 2 :=
  claim_C3_counters false
    [mkTx "0xd1" "TAddrA" "TAddrB" 10 100, mkTx "0xd2" "TAddrA" "TAddrB" 20 200]
    (by decide)

/-- C7: `clear()` followed by `get_statistics()` yields all-zero counters
and absent earliest/latest times; and a single successful
`add_transaction` after `clear()` gives statistics equal to those of the
same call on a fresh empty manager (counts reset, not cumulative), namely
1 transaction, 1 edge, 1 or 2 nodes, and both time bounds at the new
transaction's timestamp. -/
theorem claim_C7_clear (g : GraphManager) (tx : Transaction) :
    get_statistics (clear g) = ⟨0, 0, 0, none, none, g.persistent⟩ ∧
    get_statistics (addTx (clear g) tx) =
      get_statistics (addTx (GraphManager.init g.persistent) tx) ∧
    get_statistics (addTx (clear g) tx) =
      ⟨if tx.from_address == tx.to_address then 1 else 2, 1, 1,
        some tx.timestamp, some tx.timestamp, g.persistent⟩ := by
  refine ⟨rfl, rfl, ?_⟩
  by_cases hft : tx.from_address = tx.to_address
  · simp [get_statistics, addTx, add_transaction, add_or_update_node, clear,
      GraphManager.init, count_nodes, allAddresses, dedupFirst, dedupAux,
      earliest_time, latest_time, allTimes, listMin, listMax, hft, hasNode]
  · simp [get_statistics, addTx, add_transaction, add_or_update_node, clear,
      GraphManager.init, count_nodes, allAddresses, dedupFirst, dedupAux,
      earliest_time, latest_time, allTimes, listMin, listMax, hft, hasNode,
      Ne.symm hft]

theorem perm_insertByTime (tx : Transaction) (l : List Transaction) :
    (insertByTime tx l).Perm (tx :: l) := by
  induction l with
  | nil => exact List.Perm.refl _
  | cons h t ih =>
    simp only [insertByTime]
    split
    · exact (ih.cons h).trans (List.Perm.swap tx h t)
    · exact List.Perm.refl _

theorem sorted_insertByTime (tx : Transaction) (l : List Transaction)
    (hs : List.Pairwise (fun a b => a.timestamp ≤ b.timestamp) l) :
    List.Pairwise (fun a b => a.timestamp ≤ b.timestamp) (insertByTime tx l) := by
  induction l with
  | nil => simp [insertByTime]
  | cons h t ih =>
    rcases List.pairwise_cons.mp hs with ⟨hh, ht⟩
    simp only [insertByTime]
    split
    · rename_i hle
      refine List.pairwise_cons.mpr ⟨?_, ih ht⟩
      intro b hb
      rcases List.mem_cons.mp ((perm_insertByTime tx t).subset hb) with rfl | hbt
      · exact hle
      · exact hh b hbt
    · rename_i hgt
      push_neg at hgt
      refine List.pairwise_cons.mpr ⟨?_, hs⟩
      intro b hb
      rcases List.mem_cons.mp hb with rfl | hbt
      · exact le_of_lt hgt
      · exact le_of_lt (lt_of_lt_of_le hgt (hh b hbt))

theorem temporalIndex_perm (g : GraphManager) : (temporalIndex g).Perm g.edges := by
  have key : ∀ (l acc : List Transaction),
      (l.foldl (fun acc tx => insertByTime tx acc) acc).Perm (acc ++ l) := by
    intro l
    induction l with
    | nil =>
      intro acc
      simp
    | cons tx t ih =>
      intro acc
      rw [List.foldl_cons]
      refine (ih (insertByTime tx acc)).trans ?_
      refine (List.Perm.append_right t (perm_insertByTime tx acc)).trans ?_
      exact List.perm_middle.symm
  simpa [temporalIndex] using key g.edges []

theorem temporalIndex_sorted (g : GraphManager) :
    List.Pairwise (fun a b => a.timestamp ≤ b.timestamp) (temporalIndex g) := by
  have key : ∀ (l acc : List Transaction),
      List.Pairwise (fun a b => a.timestamp ≤ b.timestamp) acc →
      List.Pairwise (fun a b => a.timestamp ≤ b.timestamp)
        (l.foldl (fun acc tx => insertByTime tx acc) acc) := by
    intro l
    induction l with
    | nil =>
      intro acc h
      simpa using h
    | cons tx t ih =>
      intro acc h
      rw [List.foldl_cons]
      exact ih _ (sorted_insertByTime tx acc h)
  exact key g.edges [] List.Pairwise.nil

/-- C2: for `start < end` and positive `limit`, the windowed scan returns
the transactions with `start ≤ timestamp < end` — one record per inserted
transaction — as a timestamp-sorted sequence truncated to at most `limit`
records: the result is the `limit`-prefix of a sorted permutation of the
filtered edge list, is itself sorted, and has length
`min (number in window) limit`. -/
theorem claim_C2_window (g : GraphManager) (s e l : Int)
    (hse : s < e) (hl : 0 < l) :
    ∃ sl : List Transaction,
      sl.Perm (g.edges.filter (inWindow s e)) ∧
      List.Pairwise (fun a b => a.timestamp ≤ b.timestamp) sl ∧
      get_transactions_in_window g s e l = (sl.take l.toNat).map toRecord ∧
      List.Pairwise (fun r1 r2 => r1.timestamp ≤ r2.timestamp)
        (get_transactions_in_window g s e l) ∧
      (get_transactions_in_window g s e l).length =
        min ((g.edges.filter (inWindow s e)).length) l.toNat := by
  refine ⟨(temporalIndex g).filter (inWindow s e),
    (temporalIndex_perm g).filter _,
    List.Pairwise.filter _ (temporalIndex_sorted g), rfl, ?_, ?_⟩
  · unfold get_transactions_in_window
    refine List.pairwise_map.mpr ?_
    refine List.Pairwise.sublist (List.take_sublist _ _) ?_
    exact List.Pairwise.filter _ (temporalIndex_sorted g)
  · unfold get_transactions_in_window
    rw [List.length_map, List.length_take, min_comm]
    congr 1
    exact ((temporalIndex_perm g).filter (inWindow s e)).length_eq

/-- C2 witness: transactions at timestamps 200, 260, 320, 380 and the
window [200, 320) with limit 100 return exactly the records at 200 and
260, in order. -/
theorem claim_C2_window_witness :
    (∃ sl : List Transaction,
      sl.Perm (windowG.edges.filter (inWindow 200 320)) ∧
      List.Pairwise (fun a b => a.timestamp ≤ b.timestamp) sl ∧
      get_transactions_in_window windowG 200 320 100 =
        (sl.take (100 : Int).toNat).map toRecord ∧
      List.Pairwise (fun r1 r2 => r1.timestamp ≤ r2.timestamp)
        (get_transactions_in_window windowG 200 320 100) ∧
      (get_transactions_in_window windowG 200 320 100).length =
        min ((windowG.edges.filter (inWindow 200 320)).length) (100 : Int).toNat) ∧
    get_transactions_in_window windowG 200 320 100 =
      [toRecord (mkTx "0x1" "TFrom" "TTo" 100 200),
       toRecord (mkTx "0x2" "TFrom" "TTo" 100 260)] :=
  ⟨claim_C2_window windowG 200 320 100 (by decide) (by decide), by decide⟩

end StableRisk
